import Mathlib

/-!
Verification of the Multi-Signer crypto core: Shamir secret sharing
(`crypto/shamir.py`), Schnorr-style signatures (`crypto/schnorr.py`) and the
threshold signing orchestrator (`crypto/threshold_schnorr.py`).

The embedding mirrors the Python source.  Python integers are unbounded, so
scalars are `ℤ` (Shamir, where subtraction occurs) or `ℕ` (Schnorr, where all
intermediate values are non-negative); Python `%` on a positive modulus agrees
with `Int.emod` / `Nat.mod`.  Byte strings are `List ℕ` with entries below 256.

The module constants `PRIME` and `GENERATOR` live in `crypto/config.py`, which
is not part of the core sources; following the specification they are treated
as parameters `P` (a large prime) and `G` (a generator, in particular a unit
modulo `P`).  The external Keccak-256 digest is a function parameter `kc`, and
the secure random source is made explicit as extra arguments (`rand`, `randk`).
-/

deriving instance DecidableEq for Except

namespace MultiSigner

/-- Error kinds raised by `crypto/shamir.py` (each `raise ValueError(msg)` site
is one constructor, named after the specification's error taxonomy). -/
inductive ShamirError where
  | parameterError
  | rangeError
  | invalidPoints
  | duplicateOrZeroCoordinateError
  | insufficientSharesError
  | emptyInputError
deriving DecidableEq, Repr

/-- Error kind raised by `crypto/schnorr.py` (`raise ValueError` for an
out-of-range scalar). -/
inductive SchnorrError where
  | rangeError
deriving DecidableEq, Repr

/-- Error kinds raised by `crypto/threshold_schnorr.py`, including propagated
errors of the modules it calls. -/
inductive ThresholdError where
  | insufficientShares
  | reconstructedOutOfRange
  | shamir (e : ShamirError)
  | schnorr (e : SchnorrError)
deriving DecidableEq, Repr

/-- `_eval_poly(coeffs, x)`: Horner evaluation
`res = (res * x + a) % PRIME` over `reversed(coeffs)`. -/
def evalPoly (P : ℕ) (coeffs : List ℤ) (x : ℤ) : ℤ :=
  coeffs.reverse.foldl (fun res a => (res * x + a) % (P : ℤ)) 0

/-- `generate_shares(secret, n, t)`.  The random tail coefficients
`[secrets.randbelow(PRIME - 1) + 1 for _ in range(t - 1)]` are passed in
explicitly as `rand`. -/
def generate_shares (P : ℕ) (secret : ℤ) (n t : ℕ) (rand : List ℤ) :
    Except ShamirError (List (ℤ × ℤ)) :=
  if ¬ (1 ≤ t ∧ t ≤ n) then .error .parameterError
  else if ¬ (0 < secret ∧ secret < (P : ℤ)) then .error .rangeError
  else .ok ((List.range n).map fun i : ℕ =>
    ((i : ℤ) + 1, evalPoly P (secret :: rand) ((i : ℤ) + 1)))

/-- `PI(vals)` from `_lagrange_interpolation_at_zero`:
`reduce(lambda a, b: (a * b) % PRIME, vals, 1)`. -/
def PI (P : ℕ) (vals : List ℤ) : ℤ :=
  vals.foldl (fun a b => (a * b) % (P : ℤ)) 1

/-- `pow(a, PRIME - 2, PRIME)`: the Fermat modular inverse used by
`_lagrange_interpolation_at_zero`. -/
def modinv (P : ℕ) (a : ℤ) : ℤ :=
  (a ^ (P - 2)) % (P : ℤ)

/-- The values `xj` for `j, xj in enumerate(x_s) if j != i`. -/
def othersAt (xs : List ℤ) (i : ℕ) : List ℤ :=
  ((List.range xs.length).filter (fun j => j != i)).map (fun j => xs.getD j 0)

/-- One Lagrange coefficient `li0 = (numer * inv_denom) % PRIME` of
`_lagrange_interpolation_at_zero`. -/
def li0 (P : ℕ) (xs : List ℤ) (i : ℕ) (xi : ℤ) : ℤ :=
  (PI P ((othersAt xs i).map fun xj => (-xj) % (P : ℤ)) *
    modinv P (PI P ((othersAt xs i).map fun xj => (xi - xj) % (P : ℤ)))) % (P : ℤ)

/-- The accumulation loop `result = (result + yi * li0) % PRIME` over
`enumerate(zip(x_s, y_s))`. -/
def lagrangeSum (P : ℕ) (xs ys : List ℤ) : ℤ :=
  ((xs.zip ys).enum).foldl
    (fun acc p => (acc + p.2.2 * li0 P xs p.1 p.2.1) % (P : ℤ)) 0

/-- `_lagrange_interpolation_at_zero(x_s, y_s)`: input validation followed by
the interpolation sum. -/
def lagrange_interpolation_at_zero (P : ℕ) (xs ys : List ℤ) :
    Except ShamirError ℤ :=
  if xs = [] ∨ ys = [] ∨ xs.length ≠ ys.length then .error .invalidPoints
  else if (0 : ℤ) ∈ xs ∨ ¬ xs.Nodup then .error .duplicateOrZeroCoordinateError
  else .ok (lagrangeSum P xs ys)

/-- The part of `reconstruct_secret` after the `require_t` check: the empty
check and the unzip into `_lagrange_interpolation_at_zero`. -/
def reconstructBody (P : ℕ) (shares : List (ℤ × ℤ)) : Except ShamirError ℤ :=
  if shares = [] then .error .emptyInputError
  else lagrange_interpolation_at_zero P (shares.map Prod.fst) (shares.map Prod.snd)

/-- `reconstruct_secret(shares, require_t=None)`. -/
def reconstruct_secret (P : ℕ) (shares : List (ℤ × ℤ)) (require_t : Option ℕ) :
    Except ShamirError ℤ :=
  match require_t with
  | some rt =>
    if shares.length < rt then .error .insufficientSharesError
    else reconstructBody P shares
  | none => reconstructBody P shares

/-- `r.to_bytes(w, "big")`: fixed-width `w`-byte big-endian encoding. -/
def bytesBE (w r : ℕ) : List ℕ :=
  (List.range w).map fun i => r / 256 ^ (w - 1 - i) % 256

/-- `r.to_bytes(32, "big")` as used in `keccak_challenge` and `_det_k`. -/
def toBytes32 (r : ℕ) : List ℕ :=
  bytesBE 32 r

/-- `int.from_bytes(bs, "big")`. -/
def intFromBytes (bs : List ℕ) : ℕ :=
  bs.foldl (fun acc b => acc * 256 + b) 0

/-- `keccak_challenge(r, message)`: range-check `r`, hash the message, and
hash `r_bytes || msg_hash` down to a challenge mod `P`.  The message is given
by its byte encoding; `kc` is the external Keccak-256. -/
def keccak_challenge (P : ℕ) (kc : List ℕ → List ℕ) (r : ℕ) (msg : List ℕ) :
    Except SchnorrError (ℕ × List ℕ) :=
  if ¬ (0 < r ∧ r < P) then .error .rangeError
  else
    let msg_hash := kc msg
    .ok (intFromBytes (kc (toBytes32 r ++ msg_hash)) % P, msg_hash)

/-- `_det_k(priv, msg_hash)`: deterministic nonce
`(int.from_bytes(keccak(priv_bytes + msg_hash)) % (PRIME - 2)) + 1`. -/
def det_k (P : ℕ) (kc : List ℕ → List ℕ) (priv : ℕ) (msg_hash : List ℕ) : ℕ :=
  intFromBytes (kc (toBytes32 priv ++ msg_hash)) % (P - 2) + 1

/-- `sign_message(priv, message, deterministic=...)`.  The random-mode nonce
`secrets.randbelow(PRIME - 2) + 1` is passed in explicitly as `randk`. -/
def sign_message (P G : ℕ) (kc : List ℕ → List ℕ) (priv : ℕ) (msg : List ℕ)
    (deterministic : Bool) (randk : ℕ) : Except SchnorrError (ℕ × ℕ) :=
  if ¬ (0 < priv ∧ priv < P) then .error .rangeError
  else
    match keccak_challenge P kc 1 msg with
    | .error e => .error e
    | .ok (_h_tmp, msg_hash) =>
      let k := if deterministic then det_k P kc priv msg_hash else randk
      let r := G ^ k % P
      match keccak_challenge P kc r msg with
      | .error e => .error e
      | .ok (h, _) => .ok (r, (k + h * priv) % (P - 1))

/-- `verify_signature(pub, message, r, s)`: bounds checks returning `false`,
then the check `pow(GENERATOR, s, PRIME) == (r * pow(pub, h, PRIME)) % PRIME`.
The inputs are arbitrary (possibly negative) integers, as in Python; in the
branch that computes, `r` and `s` are known positive, so the `Int.toNat`
conversions feeding the `ℕ`-valued challenge and exponent are lossless.  The
result is wrapped in `Except` so that "never raises" is expressible. -/
def verify_signature (P G : ℕ) (kc : List ℕ → List ℕ) (pub : ℤ) (msg : List ℕ)
    (r s : ℤ) : Except SchnorrError Bool :=
  if ¬ (0 < pub ∧ pub < (P : ℤ)) then .ok false
  else if ¬ (0 < r ∧ r < (P : ℤ)) then .ok false
  else if ¬ (0 < s ∧ s < (P : ℤ) - 1) then .ok false
  else
    match keccak_challenge P kc r.toNat msg with
    | .error e => .error e
    | .ok (h, _) =>
      .ok (decide ((G : ℤ) ^ s.toNat % (P : ℤ) = (r * (pub ^ h % (P : ℤ))) % (P : ℤ)))

/-- The body of `threshold_sign` after the `require_t` check: reconstruct,
range-check the reconstructed secret, sign, and recompute the message hash.
The reconstructed value is non-negative (it is a `% PRIME` result), so the
`Int.toNat` handoff to the `ℕ`-valued Schnorr layer is lossless. -/
def thresholdBody (P G : ℕ) (kc : List ℕ → List ℕ) (shares : List (ℤ × ℤ))
    (msg : List ℕ) (deterministic : Bool) (randk : ℕ) :
    Except ThresholdError (ℕ × ℕ × List ℕ) :=
  match reconstruct_secret P shares none with
  | .error e => .error (.shamir e)
  | .ok priv =>
    if ¬ (0 < priv ∧ priv < (P : ℤ)) then .error .reconstructedOutOfRange
    else
      match sign_message P G kc priv.toNat msg deterministic randk with
      | .error e => .error (.schnorr e)
      | .ok (r, s) =>
        match keccak_challenge P kc r msg with
        | .error e => .error (.schnorr e)
        | .ok (_, msg_hash) => .ok (r, s, msg_hash)

/-- `threshold_sign(shares, message, deterministic=..., require_t=...)`. -/
def threshold_sign (P G : ℕ) (kc : List ℕ → List ℕ) (shares : List (ℤ × ℤ))
    (msg : List ℕ) (deterministic : Bool) (randk : ℕ) (require_t : Option ℕ) :
    Except ThresholdError (ℕ × ℕ × List ℕ) :=
  match require_t with
  | some rt =>
    if shares.length < rt then .error .insufficientShares
    else thresholdBody P G kc shares msg deterministic randk
  | none => thresholdBody P G kc shares msg deterministic randk

/-- `pubkey_from_secret(secret)`: range check then `pow(GENERATOR, secret, PRIME)`.
The secret is a (Python) integer; in the surviving branch it is positive, so
the `Int.toNat` feeding the natural-number exponent is lossless. -/
def pubkey_from_secret (P G : ℕ) (secret : ℤ) : Except SchnorrError ℤ :=
  if ¬ (0 < secret ∧ secret < (P : ℤ)) then .error .rangeError
  else .ok ((G : ℤ) ^ secret.toNat % (P : ℤ))

/-- A constant 32-byte digest whose big-endian value is `b`; used to
instantiate the external hash parameter on concrete test inputs. -/
def constKeccak (b : ℕ) : List ℕ → List ℕ :=
  fun _ => List.replicate 31 0 ++ [b]

/-! ### Arithmetic infrastructure -/

/-- Fermat inverse: in the field `ZMod P` with `P` prime, `a ^ (P - 2) = a⁻¹`
for `a ≠ 0`. -/
lemma pow_sub_two_eq_inv {P : ℕ} (hP : P.Prime) {a : ZMod P} (ha : a ≠ 0) :
    a ^ (P - 2) = a⁻¹ := by
  haveI : Fact P.Prime := ⟨hP⟩
  have h2 : 2 ≤ P := hP.two_le
  have h1 : a * a ^ (P - 2) = 1 := by
    have hcard : a ^ (P - 1) = 1 := ZMod.pow_card_sub_one_eq_one ha
    calc a * a ^ (P - 2) = a ^ (P - 2 + 1) := by ring
    _ = a ^ (P - 1) := by congr 1; omega
    _ = 1 := hcard
  exact (inv_eq_of_mul_eq_one_right h1).symm

/-- The embedded `pow(a, PRIME - 2, PRIME)` computes the field inverse of a
nonzero residue. -/
lemma modinv_cast {P : ℕ} (hP : P.Prime) (a : ℤ) (ha : (a : ZMod P) ≠ 0) :
    ((modinv P a : ℤ) : ZMod P) = (a : ZMod P)⁻¹ := by
  unfold modinv
  rw [ZMod.intCast_mod]
  push_cast
  exact pow_sub_two_eq_inv hP ha

/-- `modinv` is bounded: the result of `% P` lies in `[0, P)`. -/
lemma modinv_nonneg_lt {P : ℕ} (hP : 0 < P) (a : ℤ) :
    0 ≤ modinv P a ∧ modinv P a < P := by
  unfold modinv
  have h0 : (P : ℤ) ≠ 0 := by exact_mod_cast hP.ne'
  exact ⟨Int.emod_nonneg _ h0, Int.emod_lt_of_pos _ (by exact_mod_cast hP)⟩

/-- `PI` folds to the `ZMod P` product of its entries. -/
lemma PI_cast (P : ℕ) (l : List ℤ) :
    ((PI P l : ℤ) : ZMod P) = (l.map (Int.cast : ℤ → ZMod P)).prod := by
  unfold PI
  suffices h : ∀ init : ℤ,
      ((l.foldl (fun a b => (a * b) % (P : ℤ)) init : ℤ) : ZMod P)
        = (init : ZMod P) * (l.map (Int.cast : ℤ → ZMod P)).prod by
    simpa using h 1
  induction l with
  | nil => intro init; simp
  | cons x xs ih =>
    intro init
    rw [List.foldl_cons, ih ((init * x) % (P : ℤ)), ZMod.intCast_mod, Int.cast_mul,
      List.map_cons, List.prod_cons]
    ring

/-- A fold whose every step reduces `% P` lands in `[0, P)` whenever the list
is nonempty. -/
lemma foldl_emod_nonneg_lt {β : Type} (P : ℕ) (hP : 0 < P) (g : ℤ → β → ℤ) :
    ∀ (l : List β) (init : ℤ), l ≠ [] →
      0 ≤ l.foldl (fun acc b => g acc b % (P : ℤ)) init ∧
        l.foldl (fun acc b => g acc b % (P : ℤ)) init < P := by
  have h0 : (P : ℤ) ≠ 0 := by exact_mod_cast hP.ne'
  intro l
  induction l with
  | nil => intro init h; exact absurd rfl h
  | cons x xs ih =>
    intro init _
    cases xs with
    | nil =>
      exact ⟨Int.emod_nonneg _ h0, Int.emod_lt_of_pos _ (by exact_mod_cast hP)⟩
    | cons y ys =>
      simp only [List.foldl_cons]
      exact ih _ (by simp)

/-- A fold accumulating `(acc + g b) % P` casts to the `ZMod P` sum. -/
lemma foldl_emod_sum_cast {β : Type} (P : ℕ) (g : β → ℤ) (l : List β) (init : ℤ) :
    ((l.foldl (fun acc b => (acc + g b) % (P : ℤ)) init : ℤ) : ZMod P)
      = (init : ZMod P) + (l.map fun b => ((g b : ℤ) : ZMod P)).sum := by
  induction l generalizing init with
  | nil => simp
  | cons x xs ih =>
    simp only [List.foldl_cons, ih, ZMod.intCast_mod, List.map_cons, List.sum_cons]
    push_cast
    ring

/-- Big-endian bytes of `r` in width `w + 1`: the leading `w` bytes encode
`r / 256` and the trailing byte is `r % 256`. -/
lemma bytesBE_succ (w r : ℕ) :
    bytesBE (w + 1) r = bytesBE w (r / 256) ++ [r % 256] := by
  unfold bytesBE
  rw [List.range_succ, List.map_append]
  congr 1
  · refine List.map_congr_left fun i hi => ?_
    have hiw : i < w := List.mem_range.mp hi
    have hwi : w + 1 - 1 - i = (w - 1 - i) + 1 := by omega
    rw [hwi, pow_succ, mul_comm, ← Nat.div_div_eq_div_mul]
  · simp

/-- The 32-byte big-endian encoding round-trips through `int.from_bytes` for
values below `2 ^ 256`; more generally in any width. -/
lemma intFromBytes_bytesBE : ∀ w r : ℕ, r < 256 ^ w → intFromBytes (bytesBE w r) = r := by
  intro w
  induction w with
  | zero =>
    intro r hr
    interval_cases r
    rfl
  | succ w ih =>
    intro r hr
    rw [bytesBE_succ]
    unfold intFromBytes
    rw [List.foldl_append]
    have hdiv : r / 256 < 256 ^ w := by
      rw [Nat.div_lt_iff_lt_mul (by norm_num)]
      calc r < 256 ^ (w + 1) := hr
      _ = 256 ^ w * 256 := by ring
    have hrec := ih (r / 256) hdiv
    unfold intFromBytes at hrec
    simp only [List.foldl_cons, List.foldl_nil, hrec]
    omega

/-- Big-endian encodings have exactly the requested width. -/
lemma bytesBE_length (w r : ℕ) : (bytesBE w r).length = w := by
  simp [bytesBE]

/-- Every byte of a big-endian encoding is below 256. -/
lemma bytesBE_lt (w r : ℕ) : ∀ b ∈ bytesBE w r, b < 256 := by
  intro b hb
  simp only [bytesBE, List.mem_map] at hb
  obtain ⟨i, -, rfl⟩ := hb
  exact Nat.mod_lt _ (by norm_num)

/-- The polynomial over `ZMod P` whose coefficient list is the (cast) Shamir
coefficient list; used to relate the embedded Horner evaluation and Lagrange
sum to Mathlib's polynomial interpolation. -/
noncomputable def polyOfCoeffs (P : ℕ) (coeffs : List ℤ) : Polynomial (ZMod P) :=
  ∑ i ∈ Finset.range coeffs.length,
    Polynomial.C ((coeffs.getD i 0 : ℤ) : ZMod P) * Polynomial.X ^ i

/-- The cast of the `j`-th x-coordinate, as the node function handed to
Mathlib's Lagrange interpolation. -/
def vcast (P : ℕ) (xs : List ℤ) (j : ℕ) : ZMod P :=
  ((xs.getD j 0 : ℤ) : ZMod P)

/-- Peeling one coefficient off `polyOfCoeffs`. -/
lemma polyOfCoeffs_cons (P : ℕ) (a : ℤ) (tl : List ℤ) :
    polyOfCoeffs P (a :: tl)
      = Polynomial.C ((a : ℤ) : ZMod P) + Polynomial.X * polyOfCoeffs P tl := by
  unfold polyOfCoeffs
  rw [List.length_cons, Finset.sum_range_succ']
  simp only [List.getD_cons_succ, List.getD_cons_zero, pow_zero, mul_one, pow_succ]
  rw [add_comm, Finset.mul_sum]
  congr 1
  refine Finset.sum_congr rfl fun i _ => ?_
  ring

/-- The embedded Horner evaluation `_eval_poly` computes, modulo `P`, the
value of the coefficient polynomial. -/
lemma evalPoly_cast (P : ℕ) (coeffs : List ℤ) (x : ℤ) :
    ((evalPoly P coeffs x : ℤ) : ZMod P)
      = (polyOfCoeffs P coeffs).eval ((x : ℤ) : ZMod P) := by
  unfold evalPoly
  rw [List.foldl_reverse]
  induction coeffs with
  | nil => simp [polyOfCoeffs]
  | cons a tl ih =>
    rw [List.foldr_cons, ZMod.intCast_mod, polyOfCoeffs_cons]
    push_cast
    rw [ih]
    simp [Polynomial.eval_add, Polynomial.eval_mul]
    ring

/-- `polyOfCoeffs` has degree below the length of the coefficient list. -/
lemma polyOfCoeffs_degree_lt (P : ℕ) (coeffs : List ℤ) :
    (polyOfCoeffs P coeffs).degree < (coeffs.length : WithBot ℕ) := by
  refine lt_of_le_of_lt (Polynomial.degree_sum_le _ _) ?_
  rw [Finset.sup_lt_iff (WithBot.bot_lt_coe _)]
  intro i hi
  refine lt_of_le_of_lt (Polynomial.degree_C_mul_X_pow_le i _) ?_
  exact_mod_cast List.mem_range.mp (by simpa using hi)

/-- Evaluating `polyOfCoeffs` at zero extracts the constant coefficient. -/
lemma polyOfCoeffs_eval_zero (P : ℕ) (coeffs : List ℤ) :
    (polyOfCoeffs P coeffs).eval 0 = ((coeffs.getD 0 0 : ℤ) : ZMod P) := by
  cases coeffs with
  | nil => simp [polyOfCoeffs]
  | cons a tl => simp [polyOfCoeffs_cons]

/-- A mapped `List.range` sums like the corresponding `Finset.range` sum. -/
lemma list_range_map_sum {M : Type} [AddCommMonoid M] (n : ℕ) (f : ℕ → M) :
    ((List.range n).map f).sum = ∑ i ∈ Finset.range n, f i := by
  induction n with
  | zero => simp
  | succ n ih =>
    rw [List.range_succ, List.map_append, List.sum_append, Finset.sum_range_succ, ih]
    simp

/-- A mapped, index-filtered `List.range` multiplies out to the product over
the corresponding erased `Finset.range`. -/
lemma list_range_filter_map_prod {M : Type} [CommMonoid M] (n i : ℕ) (g : ℕ → M) :
    (((List.range n).filter (fun j => j != i)).map g).prod
      = ∏ j ∈ (Finset.range n).erase i, g j := by
  induction n with
  | zero => simp
  | succ n ih =>
    rw [List.range_succ, List.filter_append, List.map_append, List.prod_append, ih]
    by_cases hni : n = i
    · subst hni
      rw [Finset.range_succ, Finset.erase_insert (by simp)]
      simp
    · rw [Finset.range_succ, Finset.erase_insert_of_ne hni,
        Finset.prod_insert (fun h => absurd (Finset.mem_of_mem_erase h) (by simp))]
      have hfil : (List.filter (fun j => j != i) [n]) = [n] := by simp [hni]
      rw [hfil]
      simp [mul_comm]

/-- Casting a `PI` product over the values `xj` of `othersAt xs i` yields the
`ZMod P` product over the erased index range. -/
lemma PI_othersAt_cast (P : ℕ) (xs : List ℤ) (i : ℕ) (f : ℤ → ℤ) :
    ((PI P ((othersAt xs i).map fun xj => f xj % (P : ℤ)) : ℤ) : ZMod P)
      = ∏ j ∈ (Finset.range xs.length).erase i, ((f (xs.getD j 0) : ℤ) : ZMod P) := by
  rw [PI_cast]
  unfold othersAt
  rw [List.map_map, List.map_map,
    ← list_range_filter_map_prod xs.length i (fun j => ((f (xs.getD j 0) : ℤ) : ZMod P))]
  refine congrArg List.prod (List.map_congr_left fun j hj => ?_)
  simp [Function.comp, ZMod.intCast_mod]

/-- Casting one Lagrange coefficient `li0` of the embedded interpolation gives
the evaluation at zero of Mathlib's Lagrange basis polynomial. -/
lemma li0_cast (P : ℕ) [hPF : Fact P.Prime] (xs : List ℤ) (i : ℕ) (hi : i < xs.length)
    (hinj : ∀ j ∈ Finset.range xs.length, ∀ k ∈ Finset.range xs.length,
      vcast P xs j = vcast P xs k → j = k) :
    ((li0 P xs i (xs.getD i 0) : ℤ) : ZMod P)
      = Polynomial.eval 0 (Lagrange.basis (Finset.range xs.length) (vcast P xs) i) := by
  have hP : P.Prime := hPF.out
  have hdenom : ((PI P ((othersAt xs i).map
        fun xj => (xs.getD i 0 - xj) % (P : ℤ)) : ℤ) : ZMod P)
      = ∏ j ∈ (Finset.range xs.length).erase i, (vcast P xs i - vcast P xs j) := by
    rw [PI_othersAt_cast P xs i (fun xj => xs.getD i 0 - xj)]
    refine Finset.prod_congr rfl fun j _ => ?_
    unfold vcast
    push_cast
    ring
  have hnumer : ((PI P ((othersAt xs i).map fun xj => (-xj) % (P : ℤ)) : ℤ) : ZMod P)
      = ∏ j ∈ (Finset.range xs.length).erase i, (-(vcast P xs j)) := by
    rw [PI_othersAt_cast P xs i (fun xj => -xj)]
    refine Finset.prod_congr rfl fun j _ => ?_
    unfold vcast
    push_cast
    ring
  have hdnz : (∏ j ∈ (Finset.range xs.length).erase i,
      (vcast P xs i - vcast P xs j)) ≠ 0 := by
    rw [Finset.prod_ne_zero_iff]
    intro j hj
    refine sub_ne_zero.mpr fun heq => ?_
    rcases Finset.mem_erase.mp hj with ⟨hji, hjr⟩
    exact hji (hinj j hjr i (Finset.mem_range.mpr hi) heq.symm)
  unfold li0
  rw [ZMod.intCast_mod, Int.cast_mul,
    modinv_cast hP _ (by rw [hdenom]; exact hdnz), hnumer, hdenom]
  unfold Lagrange.basis
  rw [Polynomial.eval_prod, ← Finset.prod_inv_distrib, ← Finset.prod_mul_distrib]
  refine Finset.prod_congr rfl fun j hj => ?_
  unfold Lagrange.basisDivisor
  simp only [Polynomial.eval_mul, Polynomial.eval_sub, Polynomial.eval_C,
    Polynomial.eval_X, zero_sub]
  ring

/-- A mapped enumeration is the corresponding map over `List.range`, reading
entries through `getD`. -/
lemma enum_map_eq_range_map {α β : Type} (l : List α) (d : α) (g : ℕ × α → β) :
    l.enum.map g = (List.range l.length).map (fun j => g (j, l.getD j d)) := by
  apply List.ext_getElem
  · simp
  · intro n h1 h2
    simp only [List.getElem_map, List.getElem_enum, List.getElem_range]
    exact congrArg g (by rw [List.getD_eq_getElem l d (by simpa using h1)])

/-- The accumulated interpolation loop casts to the `ZMod P` sum of
`y_j * li0 j`. -/
lemma lagrangeSum_cast (P : ℕ) (xs ys : List ℤ) (hlen : ys.length = xs.length) :
    ((lagrangeSum P xs ys : ℤ) : ZMod P)
      = ∑ j ∈ Finset.range xs.length,
          ((ys.getD j 0 : ℤ) : ZMod P) * ((li0 P xs j (xs.getD j 0) : ℤ) : ZMod P) := by
  unfold lagrangeSum
  rw [foldl_emod_sum_cast P (fun p : ℕ × ℤ × ℤ => p.2.2 * li0 P xs p.1 p.2.1)]
  rw [enum_map_eq_range_map (xs.zip ys) (0, 0)
    (fun p => (((p.2.2 * li0 P xs p.1 p.2.1 : ℤ) : ZMod P)))]
  have hzlen : (xs.zip ys).length = xs.length := by
    simp [List.length_zip, hlen]
  rw [hzlen, list_range_map_sum]
  rw [Int.cast_zero, zero_add]
  refine Finset.sum_congr rfl fun j hj => ?_
  have hj' : j < xs.length := Finset.mem_range.mp hj
  have hjz : j < (xs.zip ys).length := by rw [hzlen]; exact hj'
  rw [List.getD_eq_getElem (xs.zip ys) (0, 0) hjz, List.getElem_zip,
    List.getD_eq_getElem xs 0 hj', List.getD_eq_getElem ys 0 (by rw [hlen]; exact hj'),
    Int.cast_mul]

/-- Evaluation of `reconstructBody` on a nonempty share list: the length /
emptiness validation of `_lagrange_interpolation_at_zero` cannot fire, so the
outcome is decided by the duplicate-or-zero coordinate check. -/
lemma reconstructBody_eq (P : ℕ) (shares : List (ℤ × ℤ)) (hne : shares ≠ []) :
    reconstructBody P shares =
      if (0 : ℤ) ∈ shares.map Prod.fst ∨ ¬ (shares.map Prod.fst).Nodup
      then .error .duplicateOrZeroCoordinateError
      else .ok (lagrangeSum P (shares.map Prod.fst) (shares.map Prod.snd)) := by
  unfold reconstructBody lagrange_interpolation_at_zero
  rw [if_neg hne, if_neg (by simp [hne])]

/-- Core correctness of the embedded Lagrange reconstruction: on any nonempty
point list whose y-values are Horner evaluations of a coefficient polynomial,
whose x-values are nonzero integers with pairwise-distinct residues, and whose
size is at least the number of coefficients, `reconstruct_secret` succeeds and
returns the constant coefficient reduced mod `P`. -/
lemma reconstruct_interpolates (P : ℕ) [hPF : Fact P.Prime] (coeffs : List ℤ)
    (pts : List (ℤ × ℤ)) (hne : pts ≠ [])
    (hlen : coeffs.length ≤ pts.length)
    (h0 : (0 : ℤ) ∉ pts.map Prod.fst)
    (hnd : ((pts.map Prod.fst).map (Int.cast : ℤ → ZMod P)).Nodup)
    (heval : ∀ q ∈ pts, q.2 = evalPoly P coeffs q.1) :
    reconstruct_secret P pts none = .ok (coeffs.getD 0 0 % (P : ℤ)) := by
  have hP : P.Prime := hPF.out
  have hndx : (pts.map Prod.fst).Nodup := List.Nodup.of_map _ hnd
  have hxlen : (pts.map Prod.fst).length = pts.length := List.length_map _ _
  have hylen : (pts.map Prod.snd).length = (pts.map Prod.fst).length := by
    simp
  simp only [reconstruct_secret]
  rw [reconstructBody_eq P pts hne, if_neg (by push_neg; exact ⟨h0, hndx⟩)]
  have hinj : ∀ j ∈ Finset.range (pts.map Prod.fst).length,
      ∀ k ∈ Finset.range (pts.map Prod.fst).length,
      vcast P (pts.map Prod.fst) j = vcast P (pts.map Prod.fst) k → j = k := by
    intro j hj k hk heq
    have hj' : j < (pts.map Prod.fst).length := Finset.mem_range.mp hj
    have hk' : k < (pts.map Prod.fst).length := Finset.mem_range.mp hk
    have hmap : ((pts.map Prod.fst).map (Int.cast : ℤ → ZMod P)).get
          ⟨j, by simpa using hj'⟩
        = ((pts.map Prod.fst).map (Int.cast : ℤ → ZMod P)).get
          ⟨k, by simpa using hk'⟩ := by
      simp only [List.get_eq_getElem, List.getElem_map]
      unfold vcast at heq
      rw [List.getD_eq_getElem _ 0 hj', List.getD_eq_getElem _ 0 hk'] at heq
      simp only [List.getElem_map] at heq
      exact heq
    have hfin := (List.Nodup.get_inj_iff hnd).mp hmap
    simpa using hfin
  have hinjOn : Set.InjOn (vcast P (pts.map Prod.fst))
      ↑(Finset.range (pts.map Prod.fst).length) := by
    intro a ha b hb heq
    exact hinj a (Finset.mem_coe.mp ha) b (Finset.mem_coe.mp hb) heq
  have heval_f : ∀ j ∈ Finset.range (pts.map Prod.fst).length,
      (polyOfCoeffs P coeffs).eval (vcast P (pts.map Prod.fst) j)
        = (((pts.map Prod.snd).getD j 0 : ℤ) : ZMod P) := by
    intro j hj
    have hj' : j < (pts.map Prod.fst).length := Finset.mem_range.mp hj
    have hjp : j < pts.length := by rwa [hxlen] at hj'
    have hq := heval (pts[j]) (pts.getElem_mem hjp)
    unfold vcast
    rw [List.getD_eq_getElem _ 0 hj',
      List.getD_eq_getElem _ 0 (by rw [hylen]; exact hj')]
    simp only [List.getElem_map]
    rw [hq, evalPoly_cast]
  have hkey : polyOfCoeffs P coeffs
      = Lagrange.interpolate (Finset.range (pts.map Prod.fst).length)
          (vcast P (pts.map Prod.fst))
          (fun j => (((pts.map Prod.snd).getD j 0 : ℤ) : ZMod P)) := by
    refine Lagrange.eq_interpolate_of_eval_eq _ hinjOn ?_ heval_f
    rw [Finset.card_range]
    refine lt_of_lt_of_le (polyOfCoeffs_degree_lt P coeffs) ?_
    rw [hxlen]
    exact_mod_cast hlen
  have hcast : ((lagrangeSum P (pts.map Prod.fst) (pts.map Prod.snd) : ℤ) : ZMod P)
      = ((coeffs.getD 0 0 % (P : ℤ) : ℤ) : ZMod P) := by
    rw [lagrangeSum_cast P _ _ hylen, ZMod.intCast_mod]
    calc ∑ j ∈ Finset.range (pts.map Prod.fst).length,
          (((pts.map Prod.snd).getD j 0 : ℤ) : ZMod P) *
            ((li0 P (pts.map Prod.fst) j ((pts.map Prod.fst).getD j 0) : ℤ) : ZMod P)
        = ∑ j ∈ Finset.range (pts.map Prod.fst).length,
            (((pts.map Prod.snd).getD j 0 : ℤ) : ZMod P) *
              Polynomial.eval 0 (Lagrange.basis
                (Finset.range (pts.map Prod.fst).length)
                (vcast P (pts.map Prod.fst)) j) := by
          refine Finset.sum_congr rfl fun j hj => ?_
          rw [li0_cast P _ j (Finset.mem_range.mp hj) hinj]
      _ = Polynomial.eval 0 (Lagrange.interpolate
            (Finset.range (pts.map Prod.fst).length) (vcast P (pts.map Prod.fst))
            (fun j => (((pts.map Prod.snd).getD j 0 : ℤ) : ZMod P))) := by
          rw [Lagrange.interpolate_apply, Polynomial.eval_finset_sum]
          refine Finset.sum_congr rfl fun j hj => ?_
          rw [Polynomial.eval_mul, Polynomial.eval_C]
      _ = Polynomial.eval 0 (polyOfCoeffs P coeffs) := by rw [← hkey]
      _ = ((coeffs.getD 0 0 : ℤ) : ZMod P) := polyOfCoeffs_eval_zero P coeffs
  have hzip_ne : ((pts.map Prod.fst).zip (pts.map Prod.snd)).enum ≠ [] := by
    have hlp : 0 < pts.length := List.length_pos.mpr hne
    have : (((pts.map Prod.fst).zip (pts.map Prod.snd)).enum).length = pts.length := by
      simp [List.length_zip]
    intro hcon
    rw [hcon] at this
    simp at this
    omega
  have hrange := foldl_emod_nonneg_lt P hP.pos
    (fun acc (p : ℕ × ℤ × ℤ) => acc + p.2.2 * li0 P (pts.map Prod.fst) p.1 p.2.1)
    (((pts.map Prod.fst).zip (pts.map Prod.snd)).enum) 0 hzip_ne
  have hsum_range : 0 ≤ lagrangeSum P (pts.map Prod.fst) (pts.map Prod.snd) ∧
      lagrangeSum P (pts.map Prod.fst) (pts.map Prod.snd) < P := hrange
  congr 1
  have h1 := (ZMod.intCast_eq_intCast_iff' _ _ _).mp hcast
  rwa [Int.emod_emod_of_dvd _ dvd_rfl,
    Int.emod_eq_of_lt hsum_range.1 hsum_range.2] at h1

/-- The x-coordinates of generated shares are `1, …, n`; with `n < P` their
residues modulo a prime `P` are pairwise distinct and the cast share list is
duplicate-free. -/
lemma generated_x_nodup (P : ℕ) (secret : ℤ) (n : ℕ) (rand : List ℤ)
    (shares : List (ℤ × ℤ)) (hn : n < P)
    (hgen : (List.range n).map (fun i : ℕ =>
        ((i : ℤ) + 1, evalPoly P (secret :: rand) ((i : ℤ) + 1))) = shares) :
    ((shares.map Prod.fst).map (Int.cast : ℤ → ZMod P)).Nodup := by
  rw [← hgen, List.map_map, List.map_map]
  refine List.Nodup.map_on ?_ (List.nodup_range n)
  intro i hi j hj heq
  have hi' : i < n := List.mem_range.mp hi
  have hj' : j < n := List.mem_range.mp hj
  simp only [Function.comp] at heq
  rw [ZMod.intCast_eq_intCast_iff'] at heq
  rw [Int.emod_eq_of_lt (by omega) (by exact_mod_cast (by omega : (i : ℤ) + 1 < P)),
    Int.emod_eq_of_lt (by omega) (by exact_mod_cast (by omega : (j : ℤ) + 1 < P))] at heq
  omega

/-- C1: Shamir round-trip.  For `1 ≤ t ≤ n < P`, a secret in `(0, P)` and any
duplicate-free selection (of any order) of at least `t` of the `n` generated
shares, reconstruction returns exactly the secret. -/
theorem shamir_round_trip (P : ℕ) (secret : ℤ) (n t : ℕ) (rand : List ℤ)
    (shares pts : List (ℤ × ℤ)) (hP : P.Prime) (hn : n < P)
    (hrand : rand.length = t - 1)
    (hgen : generate_shares P secret n t rand = .ok shares)
    (hsub : pts.Subperm shares) (hlen : t ≤ pts.length) :
    reconstruct_secret P pts none = .ok secret := by
  haveI : Fact P.Prime := ⟨hP⟩
  unfold generate_shares at hgen
  split at hgen
  · exact absurd hgen (by simp)
  · split at hgen
    · exact absurd hgen (by simp)
    · rename_i htn hsec
      rw [not_not] at htn hsec
      simp only [Except.ok.injEq] at hgen
      have ht1 : 1 ≤ t := htn.1
      have hmem : ∀ q ∈ shares, ∃ i : ℕ, i < n ∧
          q = ((i : ℤ) + 1, evalPoly P (secret :: rand) ((i : ℤ) + 1)) := by
        intro q hq
        rw [← hgen] at hq
        rcases List.mem_map.mp hq with ⟨i, hi, rfl⟩
        exact ⟨i, List.mem_range.mp hi, rfl⟩
      have hne : pts ≠ [] := by
        intro hcon
        rw [hcon] at hlen
        simp at hlen
        omega
      have hlen' : (secret :: rand).length ≤ pts.length := by
        rw [List.length_cons, hrand]
        omega
      have h0 : (0 : ℤ) ∉ pts.map Prod.fst := by
        intro hmem0
        rcases List.mem_map.mp hmem0 with ⟨q, hq, hq0⟩
        rcases hmem q (hsub.subset hq) with ⟨i, -, rfl⟩
        simp at hq0
        omega
      have hnd : ((pts.map Prod.fst).map (Int.cast : ℤ → ZMod P)).Nodup := by
        obtain ⟨u, hup, hus⟩ := hsub
        have h1 := generated_x_nodup P secret n rand shares hn hgen
        have h2 : ((u.map Prod.fst).map (Int.cast : ℤ → ZMod P)).Nodup :=
          List.Nodup.sublist ((hus.map Prod.fst).map _) h1
        exact (((hup.map Prod.fst).map _).nodup_iff).mp h2
      have heval : ∀ q ∈ pts, q.2 = evalPoly P (secret :: rand) q.1 := by
        intro q hq
        rcases hmem q (hsub.subset hq) with ⟨i, -, rfl⟩
        rfl
      have hres := reconstruct_interpolates P (secret :: rand) pts hne hlen' h0 hnd heval
      rwa [List.getD_cons_zero, Int.emod_eq_of_lt hsec.1.le hsec.2] at hres

/-- Witness for C1: `P = 13`, secret `5`, `(n, t) = (3, 3)`, tail coefficients
`[1, 2]`; reconstruction from the shares listed in a different order returns
the secret. -/
theorem shamir_round_trip_witness :
    reconstruct_secret 13 [(3, 0), (1, 8), (2, 2)] none = .ok 5 :=
  shamir_round_trip 13 5 3 3 [1, 2] [(1, 8), (2, 2), (3, 0)]
    [(3, 0), (1, 8), (2, 2)] (by norm_num) (by norm_num) (by norm_num)
    (by decide) (by decide) (by norm_num)

/-- A successful `keccak_challenge` implies the range check on `r` passed and
pins down the returned pair. -/
lemma keccak_challenge_ok {P : ℕ} {kc : List ℕ → List ℕ} {r : ℕ} {msg : List ℕ}
    {p : ℕ × List ℕ} (h : keccak_challenge P kc r msg = .ok p) :
    (0 < r ∧ r < P) ∧
      p = (intFromBytes (kc (toBytes32 r ++ kc msg)) % P, kc msg) := by
  unfold keccak_challenge at h
  split at h
  · exact absurd h (by simp)
  · rename_i hr
    rw [not_not] at hr
    refine ⟨hr, ?_⟩
    simpa using h.symm

/-- Characterisation of a successful `sign_message` run: the range checks
passed, a nonce `k` was chosen (deterministically or as supplied), and the
result is `r = G ^ k mod P` with `s = (k + h * priv) mod (P - 1)` for the
challenge `h` at `(r, msg)`. -/
lemma sign_message_ok {P G : ℕ} {kc : List ℕ → List ℕ} {priv : ℕ} {msg : List ℕ}
    {det : Bool} {randk : ℕ} {r s : ℕ}
    (h : sign_message P G kc priv msg det randk = .ok (r, s)) :
    ∃ k hch : ℕ, (0 < priv ∧ priv < P) ∧ 1 < P ∧
      k = (if det then det_k P kc priv (kc msg) else randk) ∧
      r = G ^ k % P ∧
      keccak_challenge P kc r msg = .ok (hch, kc msg) ∧
      s = (k + hch * priv) % (P - 1) := by
  unfold sign_message at h
  split at h
  · exact absurd h (by simp)
  · rename_i hpriv
    rw [not_not] at hpriv
    by_cases hP : 1 < P
    · have hch1 : keccak_challenge P kc 1 msg
          = .ok (intFromBytes (kc (toBytes32 1 ++ kc msg)) % P, kc msg) := by
        simp [keccak_challenge, hP]
      rw [hch1] at h
      simp only at h
      rcases hc2 : keccak_challenge P kc
          (G ^ (if det then det_k P kc priv (kc msg) else randk) % P) msg with e | pr
      · rw [hc2] at h
        exact absurd h (by simp)
      · rw [hc2] at h
        have hpr := (keccak_challenge_ok hc2).2
        simp only [Except.ok.injEq, Prod.mk.injEq] at h
        obtain ⟨hr, hs⟩ := h
        refine ⟨if det then det_k P kc priv (kc msg) else randk, pr.1,
          hpriv, hP, rfl, hr.symm, ?_, hs.symm⟩
        have hd : pr.2 = kc msg := by rw [hpr]
        rw [← hr, hc2, ← hd]
    · have : keccak_challenge P kc 1 msg = .error .rangeError := by
        simp [keccak_challenge, hP]
      rw [this] at h
      exact absurd h (by simp)

/-- Exponents of a nonzero element of `ZMod P` (`P` prime) can be reduced
modulo the group order `P - 1`. -/
lemma pow_mod_card_sub_one {P : ℕ} (hP : P.Prime) {a : ZMod P} (ha : a ≠ 0)
    (e : ℕ) : a ^ (e % (P - 1)) = a ^ e := by
  haveI : Fact P.Prime := ⟨hP⟩
  conv_rhs => rw [← Nat.div_add_mod e (P - 1)]
  rw [pow_add, pow_mul, ZMod.pow_card_sub_one_eq_one ha, one_pow, one_mul]

/-- The Schnorr verification equation holds for any signature produced by
`sign_message` whose scalar `s` is nonzero, against the public key
`G ^ priv mod P`. -/
lemma verify_of_sign (P G : ℕ) (kc : List ℕ → List ℕ) (priv : ℕ) (msg : List ℕ)
    (det : Bool) (randk : ℕ) (r s : ℕ) (hP : P.Prime) (hG : ¬ P ∣ G)
    (hsig : sign_message P G kc priv msg det randk = .ok (r, s)) (hs : s ≠ 0) :
    verify_signature P G kc ((G ^ priv % P : ℕ) : ℤ) msg (r : ℤ) (s : ℤ)
      = .ok true := by
  haveI : Fact P.Prime := ⟨hP⟩
  obtain ⟨k, hch, hpriv, hP1, hkdef, hrdef, hcheq, hsdef⟩ := sign_message_ok hsig
  have hrr := (keccak_challenge_ok hcheq).1
  have hpub_ne : G ^ priv % P ≠ 0 := fun h0 =>
    hG (hP.dvd_of_dvd_pow (Nat.dvd_of_mod_eq_zero h0))
  have hpub_lt : G ^ priv % P < P := Nat.mod_lt _ hP.pos
  have hslt : s < P - 1 := by
    rw [hsdef]
    exact Nat.mod_lt _ (by omega)
  have hg : (G : ZMod P) ≠ 0 := by
    rw [Ne, ZMod.natCast_zmod_eq_zero_iff_dvd]
    exact hG
  have hnat : G ^ s % P = (G ^ priv % P) ^ hch % P * r % P := by
    have hzmod : ((G ^ s % P : ℕ) : ZMod P)
        = (((G ^ priv % P) ^ hch % P * r % P : ℕ) : ZMod P) := by
      rw [ZMod.natCast_mod, ZMod.natCast_mod, Nat.cast_mul, ZMod.natCast_mod]
      push_cast
      rw [hrdef, ZMod.natCast_mod, ZMod.natCast_mod]
      push_cast
      rw [hsdef, pow_mod_card_sub_one hP hg]
      ring
    have hmodeq := (ZMod.natCast_eq_natCast_iff _ _ _).mp hzmod
    unfold Nat.ModEq at hmodeq
    rwa [Nat.mod_mod_of_dvd _ dvd_rfl, Nat.mod_mod_of_dvd _ dvd_rfl] at hmodeq
  unfold verify_signature
  rw [if_neg (not_not_intro ⟨by exact_mod_cast Nat.pos_of_ne_zero hpub_ne,
    by exact_mod_cast hpub_lt⟩)]
  rw [if_neg (not_not_intro ⟨by exact_mod_cast hrr.1, by exact_mod_cast hrr.2⟩)]
  rw [if_neg (not_not_intro ⟨by exact_mod_cast Nat.pos_of_ne_zero hs,
    by omega⟩)]
  rw [Int.toNat_natCast, hcheq]
  refine congrArg Except.ok (decide_eq_true ?_)
  rw [Int.toNat_natCast]
  have hcast : ((G : ℤ) ^ s % (P : ℤ)) = ((G ^ s % P : ℕ) : ℤ) := by
    push_cast
    rfl
  rw [hcast, hnat]
  push_cast
  ring

/-- Decomposition of a successful `threshold_sign` run: the reconstructed
secret passed its range check and was handed (as a natural number) to
`sign_message`, which produced the returned pair. -/
lemma threshold_sign_ok {P G : ℕ} {kc : List ℕ → List ℕ}
    {shares : List (ℤ × ℤ)} {msg : List ℕ} {det : Bool} {randk : ℕ}
    {rt : Option ℕ} {r s : ℕ} {d : List ℕ}
    (h : threshold_sign P G kc shares msg det randk rt = .ok (r, s, d)) :
    ∃ priv : ℤ, reconstruct_secret P shares none = .ok priv ∧
      0 < priv ∧ priv < (P : ℤ) ∧
      sign_message P G kc priv.toNat msg det randk = .ok (r, s) := by
  have hbody : thresholdBody P G kc shares msg det randk = .ok (r, s, d) := by
    cases rt with
    | none => exact h
    | some m =>
      simp only [threshold_sign] at h
      split at h
      · exact absurd h (by simp)
      · exact h
  unfold thresholdBody at hbody
  cases hrec : reconstruct_secret P shares none with
  | error e =>
    rw [hrec] at hbody
    exact absurd hbody (by simp)
  | ok priv =>
    rw [hrec] at hbody
    simp only at hbody
    split at hbody
    · exact absurd hbody (by simp)
    · rename_i hrange
      rw [not_not] at hrange
      cases hsig : sign_message P G kc priv.toNat msg det randk with
      | error e =>
        rw [hsig] at hbody
        exact absurd hbody (by simp)
      | ok pr =>
        obtain ⟨r', s'⟩ := pr
        rw [hsig] at hbody
        simp only at hbody
        cases hchq : keccak_challenge P kc r' msg with
        | error e =>
          rw [hchq] at hbody
          exact absurd hbody (by simp)
        | ok q =>
          rw [hchq] at hbody
          simp only [Except.ok.injEq, Prod.mk.injEq] at hbody
          obtain ⟨h1, h2, -⟩ := hbody
          exact ⟨priv, rfl, hrange.1, hrange.2, by rw [hsig, h1, h2]⟩

/-! ### Claim C2: signature validity -/

/-- C2 as stated is false: with `P = 7`, `G = 3`, private key `5` (in range)
and admissible nonce `1`, signing produces `s = 0`, which verification then
rejects — so `verify(pub, m, sign(priv, m))` is not always `true`. -/
theorem signature_validity_counterexample :
    (0 : ℕ) < 5 ∧ (5 : ℕ) < 7 ∧
    sign_message 7 3 (constKeccak 1) 5 [] false 1 = .ok (3, 0) ∧
    verify_signature 7 3 (constKeccak 1) ((3 ^ 5 % 7 : ℕ) : ℤ) [] 3 0
      = .ok false := by
  decide

/-- C2 amended: for every private key in range and either nonce mode, whenever
the produced scalar `s` is nonzero (which fails only in the measure-zero case
`k + h·priv ≡ 0 (mod P-1)`), verification of the signature under
`pub = G ^ priv mod P` succeeds; likewise `threshold_sign` on any
duplicate-free selection of at least `t` of the `n` shares produces a
signature accepted under `pubkey_from_secret(secret)`. -/
theorem signature_validity :
    (∀ (P G : ℕ) (kc : List ℕ → List ℕ) (priv : ℕ) (msg : List ℕ) (det : Bool)
        (randk r s : ℕ), P.Prime → ¬ P ∣ G →
      sign_message P G kc priv msg det randk = .ok (r, s) → s ≠ 0 →
      verify_signature P G kc ((G ^ priv % P : ℕ) : ℤ) msg (r : ℤ) (s : ℤ)
        = .ok true) ∧
    (∀ (P G : ℕ) (kc : List ℕ → List ℕ) (secret : ℤ) (n t : ℕ) (rand : List ℤ)
        (shares pts : List (ℤ × ℤ)) (msg : List ℕ) (det : Bool) (randk r s : ℕ)
        (d : List ℕ) (pub : ℤ), P.Prime → ¬ P ∣ G → n < P →
      rand.length = t - 1 →
      generate_shares P secret n t rand = .ok shares →
      pts.Subperm shares → t ≤ pts.length →
      threshold_sign P G kc pts msg det randk (some t) = .ok (r, s, d) →
      s ≠ 0 →
      pubkey_from_secret P G secret = .ok pub →
      verify_signature P G kc pub msg (r : ℤ) (s : ℤ) = .ok true) := by
  constructor
  · intro P G kc priv msg det randk r s hP hG hsig hs
    exact verify_of_sign P G kc priv msg det randk r s hP hG hsig hs
  · intro P G kc secret n t rand shares pts msg det randk r s d pub
      hP hG hn hrand hgen hsub hlenp hthr hs hpub
    obtain ⟨priv, hrec, hpos, hlt, hsig⟩ := threshold_sign_ok hthr
    have hrec2 := shamir_round_trip P secret n t rand shares pts hP hn hrand
      hgen hsub hlenp
    rw [hrec] at hrec2
    have hpriv_eq : priv = secret := by
      simpa using hrec2
    subst hpriv_eq
    have hpub_eq : pub = ((G ^ priv.toNat % P : ℕ) : ℤ) := by
      unfold pubkey_from_secret at hpub
      rw [if_neg (not_not_intro ⟨hpos, hlt⟩)] at hpub
      simp only [Except.ok.injEq] at hpub
      rw [← hpub]
      push_cast
      ring
    rw [hpub_eq]
    exact verify_of_sign P G kc priv.toNat msg det randk r s hP hG hsig hs

/-- Witness for the amended C2: a direct signature over `P = 7, G = 3` and a
threshold signature over `P = 13, G = 2` both verify. -/
theorem signature_validity_witness :
    verify_signature 7 3 (constKeccak 1) ((3 ^ 2 % 7 : ℕ) : ℤ) [] 3 3
        = .ok true ∧
      verify_signature 13 2 (constKeccak 1) 6 [] 2 6 = .ok true :=
  ⟨signature_validity.1 7 3 (constKeccak 1) 2 [] false 1 3 3 (by norm_num)
      (by norm_num) (by decide) (by decide),
   signature_validity.2 13 2 (constKeccak 1) 5 3 3 [1, 2]
      [(1, 8), (2, 2), (3, 0)] [(1, 8), (2, 2), (3, 0)] [] false 1 2 6
      (constKeccak 1 []) 6 (by norm_num) (by norm_num) (by norm_num)
      (by norm_num) (by decide) (List.Subperm.refl _) (by norm_num) (by decide)
      (by decide) (by decide)⟩

/-! ### Claim C5: challenge construction -/

/-- C5: `keccak_challenge(r, message)` fails with the range error unless
`0 < r < P`, and otherwise returns `(h, digest)` with `digest` the Keccak hash
of the message and `h = Keccak(r_bytes || digest) mod P`, where `r_bytes` is a
fixed-width 32-byte big-endian encoding of `r` (value-faithful below `2^256`)
concatenated in front of the digest with no separator. -/
theorem keccak_challenge_spec (P : ℕ) (kc : List ℕ → List ℕ) (r : ℕ)
    (msg : List ℕ) :
    (¬ (0 < r ∧ r < P) → keccak_challenge P kc r msg = .error .rangeError) ∧
    (0 < r → r < P →
      keccak_challenge P kc r msg
          = .ok (intFromBytes (kc (toBytes32 r ++ kc msg)) % P, kc msg) ∧
        (toBytes32 r).length = 32 ∧
        (r < 2 ^ 256 → intFromBytes (toBytes32 r) = r)) := by
  refine ⟨fun h => ?_, fun h1 h2 => ⟨?_, bytesBE_length 32 r, fun hr => ?_⟩⟩
  · simp [keccak_challenge, h]
  · simp [keccak_challenge, h1, h2]
  · exact intFromBytes_bytesBE 32 r (by calc r < 2 ^ 256 := hr
      _ = 256 ^ 32 := by norm_num)

/-- Witness for C5 at `P = 7`, `r = 3`. -/
theorem keccak_challenge_spec_witness :
    keccak_challenge 7 (constKeccak 1) 3 []
        = .ok (intFromBytes (constKeccak 1 (toBytes32 3 ++ constKeccak 1 [])) % 7,
            constKeccak 1 []) ∧
      intFromBytes (toBytes32 3) = 3 :=
  ⟨((keccak_challenge_spec 7 (constKeccak 1) 3 []).2 (by norm_num) (by norm_num)).1,
   ((keccak_challenge_spec 7 (constKeccak 1) 3 []).2 (by norm_num) (by norm_num)).2.2
     (by norm_num)⟩

/-! ### Claim C4: verify is total and rejects out-of-range inputs -/

/-- C4: `verify_signature` never raises — it always returns a boolean — and
returns `false` whenever `pub`, `r` or `s` is outside its required interval,
in particular for `r = 0`, `s = 0` and `pub = P`. -/
theorem verify_signature_total_and_bounds (P G : ℕ) (kc : List ℕ → List ℕ)
    (pub : ℤ) (msg : List ℕ) (r s : ℤ) :
    (∃ b, verify_signature P G kc pub msg r s = .ok b) ∧
    (¬ (0 < pub ∧ pub < (P : ℤ)) ∨ ¬ (0 < r ∧ r < (P : ℤ)) ∨
        ¬ (0 < s ∧ s < (P : ℤ) - 1) →
      verify_signature P G kc pub msg r s = .ok false) ∧
    verify_signature P G kc pub msg 0 s = .ok false ∧
    verify_signature P G kc pub msg r 0 = .ok false ∧
    verify_signature P G kc (P : ℤ) msg r s = .ok false := by
  have hchal : ∀ rr : ℤ, 0 < rr → rr < (P : ℤ) →
      keccak_challenge P kc rr.toNat msg
        = .ok (intFromBytes (kc (toBytes32 rr.toNat ++ kc msg)) % P, kc msg) := by
    intro rr h1 h2
    have hr : 0 < rr.toNat ∧ rr.toNat < P := by omega
    simp [keccak_challenge, hr]
  have htot : ∀ pb rr ss : ℤ, ∃ b, verify_signature P G kc pb msg rr ss = .ok b := by
    intro pb rr ss
    unfold verify_signature
    split
    · exact ⟨false, rfl⟩
    · split
      · exact ⟨false, rfl⟩
      · split
        · exact ⟨false, rfl⟩
        · rename_i h1 h2 h3
          rw [not_not] at h2
          rw [hchal rr h2.1 h2.2]
          exact ⟨_, rfl⟩
  have hfalse : ∀ pb rr ss : ℤ,
      (¬ (0 < pb ∧ pb < (P : ℤ)) ∨ ¬ (0 < rr ∧ rr < (P : ℤ)) ∨
        ¬ (0 < ss ∧ ss < (P : ℤ) - 1)) →
      verify_signature P G kc pb msg rr ss = .ok false := by
    intro pb rr ss h
    unfold verify_signature
    split
    · rfl
    · split
      · rfl
      · split
        · rfl
        · rename_i h1 h2 h3
          rw [not_not] at h1 h2 h3
          rcases h with h | h | h <;> contradiction
  exact ⟨htot pub r s, hfalse pub r s,
    hfalse pub 0 s (Or.inr (Or.inl (by simp))),
    hfalse pub r 0 (Or.inr (Or.inr (by simp))),
    hfalse (P : ℤ) r s (Or.inl (by simp))⟩

/-- Witness for C4's out-of-range implication at `pub = 7 = P`. -/
theorem verify_signature_total_and_bounds_witness :
    verify_signature 7 3 (constKeccak 1) 7 [] 3 3 = .ok false :=
  (verify_signature_total_and_bounds 7 3 (constKeccak 1) 7 [] 3 3).2.1
    (Or.inl (by norm_num))

/-! ### Claim C6: inverse of zero -/

/-- C6 as stated is false: on shares `(1, 2)` and `(6, 3)` over `P = 5`, both
interpolation denominators are `0 mod P` (the two x-coordinates coincide
modulo `P`), yet no error is raised — the modular inverse of zero silently
evaluates to `0` and reconstruction returns a value. -/
theorem modinv_zero_counterexample :
    ((1 : ℤ) - 6) % (5 : ℤ) = 0 ∧
    modinv 5 (((1 : ℤ) - 6) % (5 : ℤ)) = 0 ∧
    reconstruct_secret 5 [(1, 2), (6, 3)] none = .ok 0 := by
  decide

/-- C6 amended: the code has no division-by-zero guard — when the modular
inverse of a value `x ≡ 0 (mod P)` is attempted, `pow(x, P - 2, P)` silently
evaluates to `0` instead of failing. -/
theorem modinv_of_zero (P : ℕ) (x : ℤ) (hP : 3 ≤ P) (hx : x % (P : ℤ) = 0) :
    modinv P x = 0 := by
  unfold modinv
  have hd : (P : ℤ) ∣ x := Int.dvd_of_emod_eq_zero hx
  exact Int.emod_eq_zero_of_dvd (dvd_pow hd (by omega))

/-- Witness for the amended C6 at `P = 5`, `x = 10`. -/
theorem modinv_of_zero_witness : modinv 5 10 = 0 :=
  modinv_of_zero 5 10 (by norm_num) (by decide)

/-! ### Claim C3: range of the signature scalar `s` -/

/-- C3 as stated is false: with `P = 7`, `G = 3`, private key `5` in range and
admissible nonce `k = 1` in `[1, P - 2]`, `sign_message` returns `s = 0`. -/
theorem sign_s_zero_counterexample :
    (0 : ℕ) < 5 ∧ (5 : ℕ) < 7 ∧ 1 ≤ (1 : ℕ) ∧ (1 : ℕ) ≤ 7 - 2 ∧
    sign_message 7 3 (constKeccak 1) 5 [] false 1 = .ok (3, 0) := by
  decide

/-- C3 amended: the `s` component of any signature returned by `sign_message`
lies in `[0, P - 2]` — it is always below `P - 1`, but can be `0`. -/
theorem sign_s_lt (P G : ℕ) (kc : List ℕ → List ℕ) (priv : ℕ) (msg : List ℕ)
    (det : Bool) (randk : ℕ) (r s : ℕ)
    (h : sign_message P G kc priv msg det randk = .ok (r, s)) :
    s < P - 1 := by
  obtain ⟨k, hch, -, hP, -, -, -, hs⟩ := sign_message_ok h
  rw [hs]
  exact Nat.mod_lt _ (by omega)

/-- Witness for the amended C3. -/
theorem sign_s_lt_witness : (0 : ℕ) < 7 - 1 ∧ (0 : ℕ) < 7 - 1 :=
  ⟨sign_s_lt 7 3 (constKeccak 1) 5 [] false 1 3 0 (by decide), by norm_num⟩

/-! ### Claim C8: deterministic-mode determinism -/

/-- C8: deterministic signing ignores the random-nonce argument, so two calls
with identical inputs return identical results; the deterministic nonce is
exactly `Keccak(priv_bytes32 || digest) mod (P - 2) + 1` and lies in
`[1, P - 2]`. -/
theorem deterministic_sign (P G : ℕ) (kc : List ℕ → List ℕ) (priv : ℕ)
    (msg d : List ℕ) (rk1 rk2 : ℕ) (hP : 3 ≤ P) :
    sign_message P G kc priv msg true rk1 = sign_message P G kc priv msg true rk2 ∧
    det_k P kc priv d = intFromBytes (kc (toBytes32 priv ++ d)) % (P - 2) + 1 ∧
    1 ≤ det_k P kc priv d ∧ det_k P kc priv d ≤ P - 2 := by
  refine ⟨rfl, rfl, by unfold det_k; omega, ?_⟩
  unfold det_k
  have := Nat.mod_lt (intFromBytes (kc (toBytes32 priv ++ d)))
    (show 0 < P - 2 by omega)
  omega

/-- Witness for C8 at `P = 7` with two different random-nonce arguments. -/
theorem deterministic_sign_witness :
    sign_message 7 3 (constKeccak 1) 2 [] true 1
        = sign_message 7 3 (constKeccak 1) 2 [] true 5 ∧
      det_k 7 (constKeccak 1) 2 []
        = intFromBytes (constKeccak 1 (toBytes32 2 ++ [])) % (7 - 2) + 1 ∧
      1 ≤ det_k 7 (constKeccak 1) 2 [] ∧ det_k 7 (constKeccak 1) 2 [] ≤ 7 - 2 :=
  deterministic_sign 7 3 (constKeccak 1) 2 [] [] 1 5 (by norm_num)

/-! ### Claim C10: reconstruction from a single share -/

/-- C10: a single share `(x, y)` with `x ≠ 0` reconstructs without error when
`require_t` is omitted, silently yielding `y mod P` (which for a dealer
threshold `t > 1` is not the secret). -/
theorem reconstruct_single_share (P : ℕ) (x y : ℤ) (hP : 2 ≤ P) (hx : x ≠ 0) :
    reconstruct_secret P [(x, y)] none = .ok (y % (P : ℤ)) := by
  have h1 : (1 : ℤ) % (P : ℤ) = 1 :=
    Int.emod_eq_of_lt (by norm_num) (by exact_mod_cast hP)
  have hx' : ¬ ((0 : ℤ) = x) := fun h => hx h.symm
  have hr1 : (List.range 1).filter (fun j => j != 0) = [] := rfl
  simp [reconstruct_secret, reconstructBody, lagrange_interpolation_at_zero, hx,
    hx', lagrangeSum, li0, othersAt, PI, modinv, one_pow, h1, hr1]

/-- Witness for C10 at `P = 13`, share `(4, 7)`. -/
theorem reconstruct_single_share_witness :
    reconstruct_secret 13 [(4, 7)] none = .ok ((7 : ℤ) % 13) :=
  reconstruct_single_share 13 4 7 (by norm_num) (by norm_num)

/-! ### Claim C9: honestly produced `r` is in range -/

/-- C9: for a prime modulus and a generator not divisible by `P`, signing never
fails and the returned `r = G ^ k mod P` satisfies `0 < r < P` (so the `r`
range checks of `verify_signature` and `keccak_challenge` pass on honestly
produced signatures). -/
theorem sign_r_in_range (P G : ℕ) (kc : List ℕ → List ℕ) (priv : ℕ)
    (msg : List ℕ) (det : Bool) (randk : ℕ) (hP : P.Prime) (hG : ¬ P ∣ G)
    (h1 : 0 < priv) (h2 : priv < P) :
    ∃ r s, sign_message P G kc priv msg det randk = .ok (r, s) ∧ 0 < r ∧ r < P := by
  have hP2 : 1 < P := hP.one_lt
  set k := if det then det_k P kc priv (kc msg) else randk with hk
  have hrne : G ^ k % P ≠ 0 := by
    intro h0
    exact hG (hP.dvd_of_dvd_pow (Nat.dvd_of_mod_eq_zero h0))
  have hrlt : G ^ k % P < P := Nat.mod_lt _ (by omega)
  have hch1 : keccak_challenge P kc 1 msg
      = .ok (intFromBytes (kc (toBytes32 1 ++ kc msg)) % P, kc msg) := by
    simp [keccak_challenge, hP2]
  have hch2 : keccak_challenge P kc (G ^ k % P) msg
      = .ok (intFromBytes (kc (toBytes32 (G ^ k % P) ++ kc msg)) % P, kc msg) := by
    simp [keccak_challenge, Nat.pos_of_ne_zero hrne, hrlt]
  refine ⟨G ^ k % P,
    (k + (intFromBytes (kc (toBytes32 (G ^ k % P) ++ kc msg)) % P) * priv) % (P - 1),
    ?_, Nat.pos_of_ne_zero hrne, hrlt⟩
  unfold sign_message
  rw [if_neg (not_not_intro ⟨h1, h2⟩), hch1]
  simp only [← hk]
  rw [hch2]

/-- Witness for C9 at `P = 7`, `G = 3`, `priv = 2`, random nonce `1`. -/
theorem sign_r_in_range_witness :
    ∃ r s, sign_message 7 3 (constKeccak 1) 2 [] false 1 = .ok (r, s) ∧
      0 < r ∧ r < 7 :=
  sign_r_in_range 7 3 (constKeccak 1) 2 [] false 1 (by norm_num) (by norm_num)
    (by norm_num) (by norm_num)

/-! ### Claim C7: reconstruction error taxonomy -/

/-- C7: `reconstruct_secret` raises the insufficient-shares error exactly when
`require_t` is given and fewer shares are supplied (in particular with `t - 1`
of a required `t`); it raises the empty-input error exactly on an empty list
(once the threshold check passes); it raises the duplicate-or-zero error
exactly when some x-coordinate is zero or repeated; and with valid coordinates
and a satisfied threshold it succeeds. -/
theorem reconstruct_error_taxonomy (P : ℕ) (shares : List (ℤ × ℤ)) (rt : ℕ) :
    (reconstruct_secret P shares (some rt) = .error .insufficientSharesError ↔
      shares.length < rt) ∧
    reconstruct_secret P shares none ≠ .error .insufficientSharesError ∧
    (¬ shares.length < rt →
      (reconstruct_secret P shares (some rt) = .error .emptyInputError ↔
        shares = [])) ∧
    (reconstruct_secret P shares none = .error .emptyInputError ↔ shares = []) ∧
    (shares ≠ [] →
      (reconstruct_secret P shares none
          = .error .duplicateOrZeroCoordinateError ↔
        ((0 : ℤ) ∈ shares.map Prod.fst ∨ ¬ (shares.map Prod.fst).Nodup))) ∧
    (shares ≠ [] → ¬ shares.length < rt → (0 : ℤ) ∉ shares.map Prod.fst →
      (shares.map Prod.fst).Nodup →
      ∃ v, reconstruct_secret P shares (some rt) = .ok v) := by
  have hbody_ne : reconstructBody P shares ≠ .error .insufficientSharesError := by
    by_cases hne : shares = []
    · subst hne
      simp [reconstructBody]
    · rw [reconstructBody_eq P shares hne]
      split
      · simp
      · simp
  refine ⟨⟨?_, ?_⟩, ?_, ?_, ?_, ?_, ?_⟩
  · intro h
    by_contra hlen
    simp only [reconstruct_secret] at h
    rw [if_neg hlen] at h
    exact hbody_ne h
  · intro h
    simp only [reconstruct_secret]
    rw [if_pos h]
  · simp only [reconstruct_secret]
    exact hbody_ne
  · intro hlen
    simp only [reconstruct_secret]
    rw [if_neg hlen]
    by_cases hne : shares = []
    · subst hne
      simp [reconstructBody]
    · rw [reconstructBody_eq P shares hne]
      refine iff_of_false ?_ hne
      split
      · simp
      · simp
  · simp only [reconstruct_secret]
    by_cases hne : shares = []
    · subst hne
      simp [reconstructBody]
    · rw [reconstructBody_eq P shares hne]
      refine iff_of_false ?_ hne
      split
      · simp
      · simp
  · intro hne
    simp only [reconstruct_secret]
    rw [reconstructBody_eq P shares hne]
    split
    · rename_i hcond
      exact iff_of_true rfl hcond
    · rename_i hcond
      exact iff_of_false (by simp) hcond
  · intro hne hlen h0 hnd
    simp only [reconstruct_secret]
    rw [if_neg hlen, reconstructBody_eq P shares hne,
      if_neg (by push_neg; exact ⟨h0, hnd⟩)]
    exact ⟨_, rfl⟩

/-- Witness for C7 on the concrete share list `[(1, 8), (2, 2)]` with a
required threshold of `3` (two of three shares: insufficient). -/
theorem reconstruct_error_taxonomy_witness :
    reconstruct_secret 13 [(1, 8), (2, 2)] (some 3)
        = .error .insufficientSharesError ∧
      ∃ v, reconstruct_secret 13 [(1, 8), (2, 2)] (some 2) = .ok v :=
  ⟨(reconstruct_error_taxonomy 13 [(1, 8), (2, 2)] 3).1.mpr (by norm_num),
   (reconstruct_error_taxonomy 13 [(1, 8), (2, 2)] 2).2.2.2.2.2 (by simp)
     (by norm_num) (by decide) (by decide)⟩

end MultiSigner
